import Mathlib

/-!
Verification of the secure-session message-encryption core of the whisper
messaging repository.  The TypeScript source is shallowly embedded:
JavaScript strings are modelled as lists of Unicode code points (`JStr`),
`TextEncoder`/`TextDecoder` as executable UTF-8 encode/decode functions,
byte buffers as lists of naturals below 256, and the stateful page
handlers as pure state-passing functions on the session record.
-/

namespace Whisper

/-- JavaScript strings, modelled as lists of Unicode code points.
For the basic-multilingual-plane strings this system manipulates, a
code point coincides with one UTF-16 unit, so list length models the
JavaScript `length` property and `List.take` models `substring(0, n)`. -/
abbrev JStr := List Nat

/-- Code points representable in a JavaScript string. -/
def ValidJStr (s : JStr) : Prop := ∀ c ∈ s, c < 1114112

instance (s : JStr) : Decidable (ValidJStr s) := by
  unfold ValidJStr; infer_instance

/-- UTF-8 encoding of a single code point, as produced by `TextEncoder`. -/
def utf8EncodeChar (c : Nat) : List Nat :=
  if c < 128 then [c]
  else if c < 2048 then [192 + c / 64, 128 + c % 64]
  else if c < 65536 then [224 + c / 4096, 128 + c / 64 % 64, 128 + c % 64]
  else [240 + c / 262144, 128 + c / 4096 % 64, 128 + c / 64 % 64, 128 + c % 64]

/-- `TextEncoder.encode`: UTF-8 bytes of a string. -/
def utf8Encode (s : JStr) : List Nat := s.flatMap utf8EncodeChar

/-- One step bound of the UTF-8 decoder: fuel bounds the number of emitted
code points (each step consumes at least one byte, so `l.length` fuel is
always enough).  Follows the WHATWG decoder: invalid sequences emit the
replacement character 65533 and resume at the offending byte. -/
def utf8DecodeAux : Nat → List Nat → List Nat
  | _, [] => []
  | 0, _ :: _ => []
  | fuel + 1, b :: rest =>
    if b ≤ 127 then b :: utf8DecodeAux fuel rest
    else if b < 194 ∨ 244 < b then 65533 :: utf8DecodeAux fuel rest
    else if b ≤ 223 then
      match rest with
      | [] => [65533]
      | b1 :: rest1 =>
        if 128 ≤ b1 ∧ b1 ≤ 191 then
          ((b - 192) * 64 + (b1 - 128)) :: utf8DecodeAux fuel rest1
        else 65533 :: utf8DecodeAux fuel (b1 :: rest1)
    else if b ≤ 239 then
      match rest with
      | [] => [65533]
      | b1 :: rest1 =>
        if (if b = 224 then 160 else 128) ≤ b1 ∧
            b1 ≤ (if b = 237 then 159 else 191) then
          match rest1 with
          | [] => [65533]
          | b2 :: rest2 =>
            if 128 ≤ b2 ∧ b2 ≤ 191 then
              ((b - 224) * 4096 + (b1 - 128) * 64 + (b2 - 128)) ::
                utf8DecodeAux fuel rest2
            else 65533 :: utf8DecodeAux fuel (b2 :: rest2)
        else 65533 :: utf8DecodeAux fuel (b1 :: rest1)
    else
      match rest with
      | [] => [65533]
      | b1 :: rest1 =>
        if (if b = 240 then 144 else 128) ≤ b1 ∧
            b1 ≤ (if b = 244 then 143 else 191) then
          match rest1 with
          | [] => [65533]
          | b2 :: rest2 =>
            if 128 ≤ b2 ∧ b2 ≤ 191 then
              match rest2 with
              | [] => [65533]
              | b3 :: rest3 =>
                if 128 ≤ b3 ∧ b3 ≤ 191 then
                  ((b - 240) * 262144 + (b1 - 128) * 4096 + (b2 - 128) * 64 +
                      (b3 - 128)) :: utf8DecodeAux fuel rest3
                else 65533 :: utf8DecodeAux fuel (b3 :: rest3)
            else 65533 :: utf8DecodeAux fuel (b2 :: rest2)
        else 65533 :: utf8DecodeAux fuel (b1 :: rest1)

/-- The default `TextDecoder` strips a leading UTF-8 byte-order mark. -/
def stripBOM (l : List Nat) : List Nat :=
  match l with
  | a :: b :: c :: rest => if a = 239 ∧ b = 187 ∧ c = 191 then rest else l
  | _ => l

/-- `TextDecoder.decode` (utf-8, non-fatal): BOM strip then decode. -/
def textDecode (l : List Nat) : JStr :=
  utf8DecodeAux (stripBOM l).length (stripBOM l)

/-- Code of the lowercase hex digit for a value below 16, as produced by
`Number.prototype.toString(16)`. -/
def hexDigitChar (n : Nat) : Nat := if n < 10 then 48 + n else 87 + n

/-- Fuel-driven digit recursion for `natToHex`; any fuel at least the
value keeps the fallback (which would drop leading digits) unreachable,
since the value shrinks by a factor 16 every step. -/
def natToHexAux : Nat → Nat → JStr
  | 0, b => [hexDigitChar (b % 16)]
  | fuel + 1, b =>
    if b < 16 then [hexDigitChar b]
    else natToHexAux fuel (b / 16) ++ [hexDigitChar (b % 16)]

/-- `b.toString(16)`: hex digits of a natural number, most significant
first, one digit for values below 16. -/
def natToHex (b : Nat) : JStr := natToHexAux b b

/-- `b.toString(16).padStart(2, zero digit)`. -/
def toHexByte (b : Nat) : JStr :=
  List.replicate (2 - (natToHex b).length) 48 ++ natToHex b

/-- Hex encoding of a byte sequence: `bytes.map(toHexByte).join`. -/
def hexEncodeBytes (l : List Nat) : JStr := l.flatMap toHexByte

/-- Value of one hex digit character, if it is one. -/
def hexVal? (c : Nat) : Option Nat :=
  if 48 ≤ c ∧ c ≤ 57 then some (c - 48)
  else if 97 ≤ c ∧ c ≤ 102 then some (c - 87)
  else if 65 ≤ c ∧ c ≤ 70 then some (c - 55)
  else none

/-- `parseInt(s, 16)` restricted to the at-most-two-character slices the
source feeds it: the longest hex-digit prefix is parsed.  A slice with no
leading hex digit yields NaN in JavaScript; since NaN is coerced to 0 by
the bitwise xor that consumes the parsed value (`ToInt32(NaN) = 0`), it is
modelled as 0, which is observationally identical downstream. -/
def parseIntHexVal (s : JStr) : Nat :=
  match s with
  | [] => 0
  | c :: rest =>
    match hexVal? c with
    | none => 0
    | some v =>
      match rest with
      | [] => v
      | c2 :: _ =>
        match hexVal? c2 with
        | none => v
        | some v2 => 16 * v + v2

/-- The decrypt loop `for (i = 0; i < ciphertext.length; i += 2)
cipherBytes.push(parseInt(ciphertext.substr(i, 2), 16))`. -/
def parseHexPairs : JStr → List Nat
  | [] => []
  | [c] => [parseIntHexVal [c]]
  | c1 :: c2 :: rest => parseIntHexVal [c1, c2] :: parseHexPairs rest

/-- The string literal `message` (code points). -/
def msgLabel : JStr := [109, 101, 115, 115, 97, 103, 101]

/-- The string literal `chain` (code points). -/
def chainLabel : JStr := [99, 104, 97, 105, 110]

/-- The string literal `mac` (code points). -/
def macLabel : JStr := [109, 97, 99]

/-- The string literal `initial_chain` (code points). -/
def initialChainLabel : JStr :=
  [105, 110, 105, 116, 105, 97, 108, 95, 99, 104, 97, 105, 110]

/-- The string literal `no_encryption` (code points). -/
def noEncryptionTag : JStr :=
  [110, 111, 95, 101, 110, 99, 114, 121, 112, 116, 105, 111, 110]

/-- Key derivation from the session module: hex encoding of the UTF-8
bytes of `inputKey + info`, truncated to the first 64 hex characters. -/
def deriveKey (inputKey info : JStr) : JStr :=
  (hexEncodeBytes (utf8Encode (inputKey ++ info))).take 64

/-- The xor loop `.map((b, i) => b ^ (keyBytes[i] || 0))`: a missing key
byte defaults to 0. -/
def xorWithKey : List Nat → List Nat → List Nat
  | [], _ => []
  | b :: bs, [] => (b ^^^ 0) :: xorWithKey bs []
  | b :: bs, k :: ks => (b ^^^ k) :: xorWithKey bs ks

/-- JavaScript `String.length`: the number of UTF-16 code units — an
astral code point counts twice, every other code point once. -/
def utf16Len : JStr → Nat
  | [] => 0
  | c :: rest => (if c < 65536 then 1 else 2) + utf16Len rest

/-- Result record of `encryptMessage`. -/
structure EncryptedMessage where
  ciphertext : JStr
  mac : JStr
  newChainKey : JStr
deriving DecidableEq

/-- The session module `encryptMessage`: xor of the UTF-8 message bytes
with the UTF-8 bytes of `messageKey.substring(0, message.length)`, hex
encoded; the mac depends only on the message key, not the ciphertext.
`message.length` is the UTF-16 unit count (`utf16Len`), and taking that
many code points of `messageKey` is exact because `deriveKey` output is
always ASCII hex, one unit per code point. -/
def encryptMessage (message chainKey : JStr) : EncryptedMessage :=
  let messageKey := deriveKey chainKey msgLabel
  let newChainKey := deriveKey chainKey chainLabel
  let messageBytes := utf8Encode message
  let keyBytes := utf8Encode (messageKey.take (utf16Len message))
  let ciphertext := hexEncodeBytes (xorWithKey messageBytes keyBytes)
  let mac := (deriveKey messageKey macLabel).take 32
  ⟨ciphertext, mac, newChainKey⟩

/-- The session module `decryptMessage`: null (`none`) exactly on mac
mismatch; otherwise hex-decodes the ciphertext, xors it with the UTF-8
bytes of `messageKey.substring(0, cipherBytes.length)`, coerces the
result through `Uint8Array` (reduction mod 256) and text-decodes it. -/
def decryptMessage (ciphertext mac chainKey : JStr) :
    Option (JStr × JStr) :=
  let messageKey := deriveKey chainKey msgLabel
  let newChainKey := deriveKey chainKey chainLabel
  let expectedMac := (deriveKey messageKey macLabel).take 32
  if mac = expectedMac then
    let cipherBytes := parseHexPairs ciphertext
    let keyBytes := utf8Encode (messageKey.take cipherBytes.length)
    let messageBytes := (xorWithKey cipherBytes keyBytes).map (fun b => b % 256)
    some (textDecode messageBytes, newChainKey)
  else none

/-- The `SignalSession` row of the sessions table (fields used by the
embedded operations). -/
structure SignalSession where
  id : JStr
  alice_id : JStr
  bob_id : JStr
  session_id : JStr
  root_key : JStr
  chain_key_send : Option JStr
  chain_key_recv : Option JStr
  send_counter : Nat
  recv_counter : Nat
  prev_counter : Nat
deriving DecidableEq

/-- Chain key at position `n`, obtained by repeatedly advancing an
initial chain key with the `chain` label, as `encryptMessage` and
`decryptMessage` return it through `newChainKey`. -/
def chainKeyAt (seed : JStr) : Nat → JStr
  | 0 => seed
  | n + 1 => deriveKey (chainKeyAt seed n) chainLabel

/-- Message key at chain position `n`: the `message`-label derivation
`encryptMessage` encrypts under. -/
def messageKeyAt (seed : JStr) (n : Nat) : JStr :=
  deriveKey (chainKeyAt seed n) msgLabel

/-- Row inserted into the messages table by the send handlers. -/
structure SentMessage where
  ciphertext : JStr
  mac : JStr
  message_counter : Nat
deriving DecidableEq

/-- The string literal `initial_chain_key_` (code points). -/
def initialChainKeyTag : JStr :=
  [105, 110, 105, 116, 105, 97, 108, 95, 99, 104, 97, 105, 110, 95,
   107, 101, 121, 95]

/-- First `sendMessage` handler of the messages page (the variant whose
comments read `Simplified encryption - use shared chain key (do not
update it)` and `Update only the counter, not the chain keys`): encrypts
under the current sending chain key but persists only the incremented
send counter, leaving `chain_key_send` untouched.  Returns the persisted
session together with the inserted message row. -/
def sendMessageKeepSync (session : SignalSession) (newMessage : JStr) :
    SignalSession × SentMessage :=
  match session.chain_key_send with
  | some ck =>
    let e := encryptMessage newMessage ck
    ({ session with send_counter := session.send_counter + 1 },
     ⟨e.ciphertext, e.mac, session.send_counter + 1⟩)
  | none =>
    ({ session with send_counter := session.send_counter + 1 },
     ⟨newMessage, noEncryptionTag, session.send_counter + 1⟩)

/-- Second `sendMessage` handler of the messages page (later page
variant): same encryption, but persists the advanced chain key
`encrypted.newChainKey` together with the incremented counter.  When no
sending chain key exists it stores `initial_chain_key_` followed by the
current timestamp digits (`Date.now()` modelled as the `nowDigits`
input). -/
def sendMessageAdvance (session : SignalSession) (newMessage : JStr)
    (nowDigits : JStr) : SignalSession × SentMessage :=
  match session.chain_key_send with
  | some ck =>
    let e := encryptMessage newMessage ck
    ({ session with
        chain_key_send := some e.newChainKey,
        send_counter := session.send_counter + 1 },
     ⟨e.ciphertext, e.mac, session.send_counter + 1⟩)
  | none =>
    ({ session with
        chain_key_send := some (initialChainKeyTag ++ nowDigits),
        send_counter := session.send_counter + 1 },
     ⟨newMessage, noEncryptionTag, session.send_counter + 1⟩)

/-- Fields of the realtime INSERT payload consulted by the subscription
handler. -/
structure RealtimePayload where
  ciphertext : JStr
  mac : JStr
  session_id : JStr
  sender_id : JStr
deriving DecidableEq

/-- Realtime message handler of the messages page: attempts decryption
only when the payload carries a session id and a mac other than
`no_encryption` (string truthiness: the empty string is falsy), and
persists the advanced receiving chain state only when `decryptMessage`
succeeds.  The handler runs with a logged-in user, so the `currentUser`
truthiness test is met.  Returns the persisted session state and the
content displayed. -/
def realtimeDecryptHandler (session : Option SignalSession)
    (p : RealtimePayload) : Option SignalSession × JStr :=
  let content := p.ciphertext
  if p.session_id ≠ [] ∧ p.mac ≠ [] ∧ p.mac ≠ noEncryptionTag then
    match session with
    | some s =>
      match s.chain_key_recv with
      | some ck =>
        match decryptMessage p.ciphertext p.mac ck with
        | some (msg, nck) =>
          (some { s with
                    chain_key_recv := some nck,
                    recv_counter := s.recv_counter + 1 }, msg)
        | none => (some s, content)
      | none => (some s, content)
    | none => (none, content)
  else (session, content)

/-- The string literal `identity_` (code points), the key namespace
tag of the protocol store identity records. -/
def identityTag : JStr := [105, 100, 101, 110, 116, 105, 116, 121, 95]

/-- The protocol store `Map`, as an insertion-ordered association list
from string keys to byte buffers. -/
abbrev StoreMap := List (JStr × List Nat)

/-- `Map.get`: the value stored under `k`, if any. -/
def mapGet (st : StoreMap) (k : JStr) : Option (List Nat) :=
  match st with
  | [] => none
  | (k1, v) :: rest => if k1 = k then some v else mapGet rest k

/-- `Map.set`: overwrite the value under `k`, or append a new entry. -/
def mapSet (st : StoreMap) (k : JStr) (v : List Nat) : StoreMap :=
  match st with
  | [] => [(k, v)]
  | (k1, v1) :: rest =>
    if k1 = k then (k, v) :: rest else (k1, v1) :: mapSet rest k v

/-- The store helper `arrayBufferEquals`: length check then bytewise
comparison. -/
def arrayBufferEquals (buf1 buf2 : List Nat) : Bool :=
  if buf1.length ≠ buf2.length then false
  else (buf1.zip buf2).all fun p => p.1 == p.2

/-- `SignalProtocolStore.isTrustedIdentity`: trust on first use, else
bytewise comparison with the pinned identity. -/
def isTrustedIdentity (st : StoreMap) (identifier : JStr)
    (identityKey : List Nat) : Bool :=
  match mapGet st (identityTag ++ identifier) with
  | none => true
  | some trusted => arrayBufferEquals identityKey trusted

/-- `SignalProtocolStore.saveIdentity`: reads the existing record,
unconditionally overwrites it, and returns whether a different existing
identity was replaced. -/
def saveIdentity (st : StoreMap) (identifier : JStr)
    (identityKey : List Nat) : StoreMap × Bool :=
  let existing := mapGet st (identityTag ++ identifier)
  let st1 := mapSet st (identityTag ++ identifier) identityKey
  match existing with
  | some e => (st1, !(arrayBufferEquals identityKey e))
  | none => (st1, false)

/-- Concrete shared secret of the shape the page handlers create
(`temp_shared_secret_` followed by a `Date.now()` timestamp):
`temp_shared_secret_1757000000000`. -/
def tempSecret : JStr :=
  [116, 101, 109, 112, 95, 115, 104, 97, 114, 101, 100, 95, 115, 101,
   99, 114, 101, 116, 95, 49, 55, 53, 55, 48, 48, 48, 48, 48, 48, 48,
   48, 48]

/-- The initial chain key `createSession` derives for `tempSecret`
(`deriveKey(rootKey, initial_chain)`), a 64-character hex string. -/
def seedK : JStr := deriveKey tempSecret initialChainLabel

/-- The string literal `hello` (code points). -/
def helloCodes : JStr := [104, 101, 108, 108, 111]

/-- A concrete 32-character hex chain key,
`0123456789abcdef0123456789abcdef`. -/
def k32 : JStr :=
  [48, 49, 50, 51, 52, 53, 54, 55, 56, 57, 97, 98, 99, 100, 101, 102,
   48, 49, 50, 51, 52, 53, 54, 55, 56, 57, 97, 98, 99, 100, 101, 102]

/-- A concrete established session whose sending and receiving chains
hold the initial chain key derived from `tempSecret`. -/
def sampleSession : SignalSession :=
  ⟨[115], [97], [98], [115], tempSecret, some seedK, some seedK, 0, 0, 0⟩

theorem xorLtPow {n x y : Nat} (hx : x < 2 ^ n) (hy : y < 2 ^ n) :
    x ^^^ y < 2 ^ n := by
  have h : Nat.bitwise bne x y < 2 ^ n := Nat.bitwise_lt hx hy
  simpa [HXor.hXor, Xor.xor, Nat.xor] using h

theorem utf8EncodeChar_ascii {c : Nat} (h : c ≤ 127) :
    utf8EncodeChar c = [c] := by
  unfold utf8EncodeChar
  rw [if_pos (by omega)]

theorem utf8Encode_ascii {s : JStr} (h : ∀ c ∈ s, c ≤ 127) :
    utf8Encode s = s := by
  induction s with
  | nil => rfl
  | cons a t ih =>
    have ha : a ≤ 127 := h a (by simp)
    have ht : ∀ c ∈ t, c ≤ 127 := fun c hc => h c (by simp [hc])
    show utf8EncodeChar a ++ utf8Encode t = a :: t
    rw [utf8EncodeChar_ascii ha, ih ht]
    rfl

theorem utf8Encode_append (a b : JStr) :
    utf8Encode (a ++ b) = utf8Encode a ++ utf8Encode b := by
  simp [utf8Encode]

theorem utf8EncodeChar_lt {c : Nat} (h : c < 1114112) :
    ∀ b ∈ utf8EncodeChar c, b < 256 := by
  intro b hb
  unfold utf8EncodeChar at hb
  split at hb
  · simp at hb; omega
  · split at hb
    · simp at hb
      rcases hb with h1 | h1 <;> omega
    · split at hb
      · simp at hb
        rcases hb with h1 | h1 | h1 <;> omega
      · simp at hb
        rcases hb with h1 | h1 | h1 | h1 <;> omega

theorem utf8Encode_lt {s : JStr} (h : ValidJStr s) :
    ∀ b ∈ utf8Encode s, b < 256 := by
  intro b hb
  simp only [utf8Encode, List.mem_flatMap] at hb
  obtain ⟨c, hc, hb⟩ := hb
  exact utf8EncodeChar_lt (h c hc) b hb

theorem utf8EncodeChar_ne_nil (c : Nat) : utf8EncodeChar c ≠ [] := by
  unfold utf8EncodeChar
  split
  · simp
  · split
    · simp
    · split <;> simp

theorem utf8Encode_length_ge (s : JStr) :
    s.length ≤ (utf8Encode s).length := by
  induction s with
  | nil => simp
  | cons a t ih =>
    show t.length + 1 ≤ (utf8EncodeChar a ++ utf8Encode t).length
    rw [List.length_append]
    have h1 : 1 ≤ (utf8EncodeChar a).length := by
      rcases h : utf8EncodeChar a with _ | ⟨x, xs⟩
      · exact absurd h (utf8EncodeChar_ne_nil a)
      · simp
    omega

theorem hexDigitChar_le {n : Nat} (h : n < 16) : hexDigitChar n ≤ 127 := by
  unfold hexDigitChar
  split <;> omega

theorem natToHexAux_ascii (fuel b : Nat) :
    ∀ c ∈ natToHexAux fuel b, c ≤ 127 := by
  induction fuel generalizing b with
  | zero =>
    intro c hc
    simp only [natToHexAux, List.mem_singleton] at hc
    subst hc
    exact hexDigitChar_le (Nat.mod_lt _ (by omega))
  | succ f ih =>
    intro c hc
    rw [natToHexAux] at hc
    split at hc
    · simp only [List.mem_singleton] at hc
      subst hc
      exact hexDigitChar_le (by omega)
    · rw [List.mem_append] at hc
      rcases hc with hc | hc
      · exact ih (b / 16) c hc
      · simp only [List.mem_singleton] at hc
        subst hc
        exact hexDigitChar_le (Nat.mod_lt _ (by omega))

theorem natToHex_ascii (b : Nat) : ∀ c ∈ natToHex b, c ≤ 127 :=
  natToHexAux_ascii b b

theorem natToHexAux_lt16 {fuel b : Nat} (h : b < 16) :
    natToHexAux fuel b = [hexDigitChar b] := by
  cases fuel with
  | zero =>
    show [hexDigitChar (b % 16)] = [hexDigitChar b]
    rw [Nat.mod_eq_of_lt h]
  | succ f => rw [natToHexAux, if_pos h]

theorem toHexByte_ascii (b : Nat) : ∀ c ∈ toHexByte b, c ≤ 127 := by
  intro c hc
  unfold toHexByte at hc
  rw [List.mem_append] at hc
  rcases hc with hc | hc
  · rw [List.eq_of_mem_replicate hc]; omega
  · exact natToHex_ascii b c hc

theorem hexEncodeBytes_ascii (l : List Nat) :
    ∀ c ∈ hexEncodeBytes l, c ≤ 127 := by
  intro c hc
  simp only [hexEncodeBytes, List.mem_flatMap] at hc
  obtain ⟨b, _, hc⟩ := hc
  exact toHexByte_ascii b c hc

theorem deriveKey_ascii (k i : JStr) : ∀ c ∈ deriveKey k i, c ≤ 127 :=
  fun c hc => hexEncodeBytes_ascii _ c (List.mem_of_mem_take hc)

theorem toHexByte_eq {b : Nat} (h : b < 256) :
    toHexByte b = [hexDigitChar (b / 16), hexDigitChar (b % 16)] := by
  by_cases h16 : b < 16
  · have h1 : natToHex b = [hexDigitChar b] := natToHexAux_lt16 h16
    have h2 : b / 16 = 0 := Nat.div_eq_of_lt h16
    have h3 : b % 16 = b := Nat.mod_eq_of_lt h16
    rw [toHexByte, h1, h2, h3]
    simp [hexDigitChar]
  · have h1 : natToHex b =
        natToHexAux (b - 1) (b / 16) ++ [hexDigitChar (b % 16)] := by
      obtain ⟨f, rfl⟩ : ∃ f, b = f + 1 := ⟨b - 1, by omega⟩
      rw [natToHex, natToHexAux, if_neg h16]
      rw [Nat.add_sub_cancel]
    have h2 : natToHexAux (b - 1) (b / 16) = [hexDigitChar (b / 16)] :=
      natToHexAux_lt16 (by omega)
    rw [toHexByte, h1, h2]
    simp

theorem hexVal?_hexDigitChar : ∀ n < 16, hexVal? (hexDigitChar n) = some n := by
  decide

theorem parseHexPairs_cons {b : Nat} (h : b < 256) (rest : JStr) :
    parseHexPairs (toHexByte b ++ rest) = b :: parseHexPairs rest := by
  rw [toHexByte_eq h]
  show parseHexPairs (hexDigitChar (b / 16) :: hexDigitChar (b % 16) :: rest) = _
  rw [parseHexPairs]
  have hv1 := hexVal?_hexDigitChar (b / 16) (by omega)
  have hv2 := hexVal?_hexDigitChar (b % 16) (Nat.mod_lt _ (by omega))
  have hp : parseIntHexVal [hexDigitChar (b / 16), hexDigitChar (b % 16)] = b := by
    rw [parseIntHexVal, hv1]
    simp only [hv2]
    omega
  rw [hp]

theorem parseHexPairs_hexEncodeBytes {l : List Nat}
    (h : ∀ b ∈ l, b < 256) :
    parseHexPairs (hexEncodeBytes l) = l := by
  induction l with
  | nil => rfl
  | cons b t ih =>
    have hb : b < 256 := h b (by simp)
    have ht : ∀ x ∈ t, x < 256 := fun x hx => h x (by simp [hx])
    show parseHexPairs (toHexByte b ++ hexEncodeBytes t) = b :: t
    rw [parseHexPairs_cons hb, ih ht]

theorem hexEncodeBytes_length {l : List Nat} (h : ∀ b ∈ l, b < 256) :
    (hexEncodeBytes l).length = 2 * l.length := by
  induction l with
  | nil => rfl
  | cons b t ih =>
    have hb : b < 256 := h b (by simp)
    have ht : ∀ x ∈ t, x < 256 := fun x hx => h x (by simp [hx])
    show (toHexByte b ++ hexEncodeBytes t).length = 2 * (t.length + 1)
    rw [List.length_append, toHexByte_eq hb, ih ht]
    simp
    omega

theorem hexEncodeBytes_take {l : List Nat} (h : ∀ b ∈ l, b < 256)
    (n : Nat) :
    (hexEncodeBytes l).take (2 * n) = hexEncodeBytes (l.take n) := by
  induction l generalizing n with
  | nil => simp [hexEncodeBytes]
  | cons b t ih =>
    have hb : b < 256 := h b (by simp)
    have ht : ∀ x ∈ t, x < 256 := fun x hx => h x (by simp [hx])
    cases n with
    | zero => simp [hexEncodeBytes]
    | succ m =>
      show (toHexByte b ++ hexEncodeBytes t).take (2 * (m + 1)) =
        hexEncodeBytes (b :: t.take m)
      rw [toHexByte_eq hb]
      have h2 : 2 * (m + 1) = 2 * m + 1 + 1 := by omega
      rw [h2]
      show hexDigitChar (b / 16) :: hexDigitChar (b % 16) ::
        (hexEncodeBytes t).take (2 * m) = _
      rw [ih ht m]
      show _ = toHexByte b ++ hexEncodeBytes (t.take m)
      rw [toHexByte_eq hb]
      rfl

theorem xorWithKey_length (bs ks : List Nat) :
    (xorWithKey bs ks).length = bs.length := by
  induction bs generalizing ks with
  | nil => cases ks <;> rfl
  | cons b t ih =>
    cases ks with
    | nil => show (xorWithKey t []).length + 1 = t.length + 1; rw [ih]
    | cons k kt => show (xorWithKey t kt).length + 1 = t.length + 1; rw [ih]

theorem xorWithKey_lt {w : Nat} {bs ks : List Nat}
    (hb : ∀ b ∈ bs, b < 2 ^ w) (hk : ∀ k ∈ ks, k < 2 ^ w) :
    ∀ x ∈ xorWithKey bs ks, x < 2 ^ w := by
  induction bs generalizing ks with
  | nil => intro x hx; cases ks <;> simp [xorWithKey] at hx
  | cons b t ih =>
    intro x hx
    have hb0 : b < 2 ^ w := hb b (by simp)
    have hbt : ∀ y ∈ t, y < 2 ^ w := fun y hy => hb y (by simp [hy])
    cases ks with
    | nil =>
      rw [xorWithKey] at hx
      rcases List.mem_cons.mp hx with h | h
      · subst h; rw [Nat.xor_zero]; exact hb0
      · exact ih hbt (by intro k hk0; simp at hk0) x h
    | cons k kt =>
      have hk0 : k < 2 ^ w := hk k (by simp)
      have hkt : ∀ y ∈ kt, y < 2 ^ w := fun y hy => hk y (by simp [hy])
      rw [xorWithKey] at hx
      rcases List.mem_cons.mp hx with h | h
      · subst h; exact xorLtPow hb0 hk0
      · exact ih hbt hkt x h

theorem xorWithKey_cancel {bs : List Nat} (ks : List Nat)
    (hb : ∀ b ∈ bs, b < 256) :
    (xorWithKey (xorWithKey bs ks) ks).map (fun b => b % 256) = bs := by
  induction bs generalizing ks with
  | nil => cases ks <;> rfl
  | cons b t ih =>
    have hb0 : b < 256 := hb b (by simp)
    have hbt : ∀ y ∈ t, y < 256 := fun y hy => hb y (by simp [hy])
    cases ks with
    | nil =>
      show ((b ^^^ 0) ^^^ 0) % 256 ::
        (xorWithKey (xorWithKey t []) []).map (fun x => x % 256) = b :: t
      rw [Nat.xor_zero, Nat.xor_zero, Nat.mod_eq_of_lt hb0, ih [] hbt]
    | cons k kt =>
      show ((b ^^^ k) ^^^ k) % 256 ::
        (xorWithKey (xorWithKey t kt) kt).map (fun x => x % 256) = b :: t
      rw [Nat.xor_cancel_right, Nat.mod_eq_of_lt hb0, ih kt hbt]

theorem xorWithKey_getElem {bs : List Nat} (ks : List Nat) {i : Nat}
    (h : ks.length ≤ i) : (xorWithKey bs ks)[i]? = bs[i]? := by
  induction bs generalizing ks i with
  | nil => cases ks <;> rfl
  | cons b t ih =>
    cases ks with
    | nil =>
      rw [xorWithKey]
      cases i with
      | zero => simp [Nat.xor_zero]
      | succ j => simpa using ih [] (by simp)
    | cons k kt =>
      cases i with
      | zero => simp at h
      | succ j =>
        rw [xorWithKey]
        simpa using ih kt (by simp at h; omega)

theorem stripBOM_ascii {l : List Nat} (h : ∀ b ∈ l, b ≤ 127) :
    stripBOM l = l := by
  rcases l with _ | ⟨a, _ | ⟨b, _ | ⟨c, rest⟩⟩⟩
  · rfl
  · rfl
  · rfl
  · have ha : a ≤ 127 := h a (by simp)
    rw [stripBOM]
    rw [if_neg (by omega)]

theorem utf8DecodeAux_ascii :
    ∀ fuel (l : List Nat), l.length ≤ fuel → (∀ b ∈ l, b ≤ 127) →
      utf8DecodeAux fuel l = l := by
  intro fuel
  induction fuel with
  | zero =>
    intro l hl _
    rcases l with _ | ⟨b, t⟩
    · rfl
    · simp at hl
  | succ f ih =>
    intro l hl hb
    rcases l with _ | ⟨b, t⟩
    · rfl
    · have hb0 : b ≤ 127 := hb b (by simp)
      have hbt : ∀ x ∈ t, x ≤ 127 := fun x hx => hb x (by simp [hx])
      rw [utf8DecodeAux.eq_def]
      simp only [if_pos hb0, ih t (by simp at hl; omega) hbt]

theorem textDecode_ascii {l : List Nat} (h : ∀ b ∈ l, b ≤ 127) :
    textDecode l = l := by
  rw [textDecode, stripBOM_ascii h]
  exact utf8DecodeAux_ascii _ _ le_rfl h

theorem utf16Len_bmp {s : JStr} (h : ∀ c ∈ s, c < 65536) :
    utf16Len s = s.length := by
  induction s with
  | nil => rfl
  | cons a t ih =>
    have ha : a < 65536 := h a (by simp)
    have ht : ∀ c ∈ t, c < 65536 := fun c hc => h c (by simp [hc])
    rw [utf16Len, if_pos ha, ih ht, List.length_cons]
    omega

theorem mapGet_mapSet_self (st : StoreMap) (k : JStr) (v : List Nat) :
    mapGet (mapSet st k v) k = some v := by
  induction st with
  | nil => simp [mapSet, mapGet]
  | cons e rest ih =>
    obtain ⟨k1, v1⟩ := e
    rw [mapSet]
    by_cases hk : k1 = k
    · rw [if_pos hk, mapGet, if_pos rfl]
    · rw [if_neg hk, mapGet, if_neg hk, ih]

theorem zipAllEq {a b : List Nat} (hl : a.length = b.length)
    (h : ((a.zip b).all fun p => p.1 == p.2) = true) : a = b := by
  induction a generalizing b with
  | nil =>
    cases b with
    | nil => rfl
    | cons y ys => simp at hl
  | cons x xs ih =>
    cases b with
    | nil => simp at hl
    | cons y ys =>
      simp only [List.zip_cons_cons, List.all_cons, Bool.and_eq_true,
        beq_iff_eq] at h
      rw [h.1, ih (by simp at hl; omega) h.2]

theorem zipSelfAll (a : List Nat) :
    ((a.zip a).all fun p => p.1 == p.2) = true := by
  induction a with
  | nil => rfl
  | cons x xs ih =>
    simp only [List.zip_cons_cons, List.all_cons, beq_self_eq_true,
      Bool.true_and]
    exact ih

theorem arrayBufferEquals_iff (a b : List Nat) :
    arrayBufferEquals a b = true ↔ a = b := by
  constructor
  · intro h
    rw [arrayBufferEquals] at h
    split at h
    · exact absurd h (by simp)
    · rename_i hlen
      exact zipAllEq (by omega) h
  · intro h
    subst h
    rw [arrayBufferEquals, if_neg (by omega)]
    exact zipSelfAll a

theorem saveIdentity_fst (st : StoreMap) (identifier : JStr)
    (identityKey : List Nat) :
    (saveIdentity st identifier identityKey).1 =
      mapSet st (identityTag ++ identifier) identityKey := by
  rw [saveIdentity]
  cases mapGet st (identityTag ++ identifier) <;> rfl

theorem hexEncodeBytes_append (a b : List Nat) :
    hexEncodeBytes (a ++ b) = hexEncodeBytes a ++ hexEncodeBytes b := by
  simp [hexEncodeBytes]

/-- C1: refuted on the code.  Altering a single hex digit of the
ciphertext of an encrypted `hello` (position 1 set to the digit 4) is
not detected: `decryptMessage` still succeeds under the same chain key
and returns a plaintext different from the original, because the mac is
derived from the message key alone and never covers the ciphertext. -/
theorem c1_tamper_undetected_eval :
    ((encryptMessage helloCodes seedK).ciphertext.set 1 52 ≠
      (encryptMessage helloCodes seedK).ciphertext) ∧
    (decryptMessage ((encryptMessage helloCodes seedK).ciphertext.set 1 52)
      (encryptMessage helloCodes seedK).mac seedK).isSome = true ∧
    Option.map Prod.fst
      (decryptMessage ((encryptMessage helloCodes seedK).ciphertext.set 1 52)
        (encryptMessage helloCodes seedK).mac seedK) ≠ some helloCodes := by
  decide

/-- C2: refuted on the code.  The first `sendMessage` handler persists
the session with its send counter incremented but its sending chain key
untouched, although advancing it with the `chain` label would have
changed it. -/
theorem c2_keep_sync_eval :
    (sendMessageKeepSync sampleSession helloCodes).1.chain_key_send =
      some seedK ∧
    deriveKey seedK chainLabel ≠ seedK ∧
    (sendMessageKeepSync sampleSession helloCodes).1.send_counter =
      sampleSession.send_counter + 1 := by
  decide

/-- C3, counterexample: for the one-character non-ASCII plaintext 233
(latin small letter e with acute) and the 32-character hex chain key
`k32`, decryption of the envelope produced by encryption succeeds but
returns a different string (code point 217), because the xor key stream
is sized by character count during encryption and by byte count during
decryption. -/
theorem c3_non_ascii_counterexample :
    Option.map Prod.fst
      (decryptMessage (encryptMessage [233] k32).ciphertext
        (encryptMessage [233] k32).mac k32) ≠ some [233] ∧
    (decryptMessage (encryptMessage [233] k32).ciphertext
      (encryptMessage [233] k32).mac k32).isSome = true := by
  decide

/-- C3, amended: for every chain key and every plaintext whose code
points are all ASCII (at most 127), decrypting the envelope produced by
`encryptMessage` under the same chain key succeeds and returns exactly
the plaintext, together with the advanced chain key.  (The unrestricted
claim fails at the short non-ASCII plaintext of the counterexample,
where the encrypt-side key stream is sized by the UTF-16 length and the
decrypt-side one by the UTF-8 byte count.) -/
theorem c3_roundtrip_ascii (m k : JStr) (hm : ∀ c ∈ m, c ≤ 127) :
    decryptMessage (encryptMessage m k).ciphertext
      (encryptMessage m k).mac k = some (m, deriveKey k chainLabel) := by
  have hu : utf16Len m = m.length :=
    utf16Len_bmp (fun c hc => by have := hm c hc; omega)
  have hmk := deriveKey_ascii k msgLabel
  have hmkt : ∀ c ∈ (deriveKey k msgLabel).take m.length, c ≤ 127 :=
    fun c hc => hmk c (List.mem_of_mem_take hc)
  have hmb : utf8Encode m = m := utf8Encode_ascii hm
  have hkb : utf8Encode ((deriveKey k msgLabel).take m.length) =
      (deriveKey k msgLabel).take m.length := utf8Encode_ascii hmkt
  have h27 : (2 : Nat) ^ 7 = 128 := by norm_num
  have hm7 : ∀ b ∈ m, b < 2 ^ 7 := fun b hb => by
    have := hm b hb; omega
  have hk7 : ∀ b ∈ (deriveKey k msgLabel).take m.length, b < 2 ^ 7 :=
    fun b hb => by have := hmkt b hb; omega
  have hC7 := xorWithKey_lt hm7 hk7
  have hC256 : ∀ x ∈ xorWithKey m ((deriveKey k msgLabel).take m.length),
      x < 256 := fun x hx => by have := hC7 x hx; omega
  have hparse := parseHexPairs_hexEncodeBytes hC256
  have hlen := xorWithKey_length m ((deriveKey k msgLabel).take m.length)
  have hm256 : ∀ b ∈ m, b < 256 := fun b hb => by have := hm b hb; omega
  have hcancel := xorWithKey_cancel
    ((deriveKey k msgLabel).take m.length) hm256
  simp only [encryptMessage, decryptMessage]
  rw [if_pos trivial, hu, hmb, hkb, hparse, hlen, hkb, hcancel,
    textDecode_ascii hm]

/-- C3, witness: the amended round trip evaluated at the ASCII
plaintext `hello` and the chain key `k32`. -/
theorem c3_roundtrip_witness :
    decryptMessage (encryptMessage helloCodes k32).ciphertext
      (encryptMessage helloCodes k32).mac k32 =
      some (helloCodes, deriveKey k32 chainLabel) :=
  c3_roundtrip_ascii helloCodes k32 (by decide)

/-- C4: refuted on the code.  For the 64-character hex chain key
`seedK` (the initial chain key of a created session), the `message`
derivation and the `chain` derivation coincide, so the message key
equals the next chain key and there is no domain separation. -/
theorem c4_no_domain_separation_eval :
    deriveKey seedK msgLabel = deriveKey seedK chainLabel := by
  decide

/-- C5: refuted on the code.  Starting from the initial chain key
`seedK`, the message keys at the distinct chain positions 6 and 7
coincide, a collision far below the 10000 derivations the claim
requires to be collision free. -/
theorem c5_message_key_collision_eval :
    messageKeyAt seedK 6 = messageKeyAt seedK 7 ∧ (6 : Nat) ≠ 7 ∧
    (7 : Nat) ≤ 10000 := by
  decide

/-- C6: when `decryptMessage` fails, the realtime handler leaves the
persisted session untouched. -/
theorem c6_failed_decrypt_preserves_state (s : SignalSession)
    (p : RealtimePayload) (ck : JStr) (hck : s.chain_key_recv = some ck)
    (hfail : decryptMessage p.ciphertext p.mac ck = none) :
    (realtimeDecryptHandler (some s) p).1 = some s := by
  rw [realtimeDecryptHandler]
  split
  · simp only [hck, hfail]
  · rfl

/-- C6, witness: a concrete session and a payload whose mac fails
verification. -/
theorem c6_witness :
    (realtimeDecryptHandler
      (some ⟨[], [], [], [], [], none, some k32, 0, 0, 0⟩)
      ⟨helloCodes, [48], [49], []⟩).1 =
      some ⟨[], [], [], [], [], none, some k32, 0, 0, 0⟩ :=
  c6_failed_decrypt_preserves_state _ _ k32 rfl (by decide)

/-- C7: on a fresh store, the first save of an identity returns false,
overwriting it with a different key returns true, and re-saving the
same key returns false. -/
theorem c7_saveIdentity_change_flag (remoteId : JStr)
    (keyA keyB : List Nat) (hne : keyA ≠ keyB) :
    (saveIdentity [] remoteId keyA).2 = false ∧
    (saveIdentity (saveIdentity [] remoteId keyA).1 remoteId keyB).2 =
      true ∧
    (saveIdentity
      (saveIdentity (saveIdentity [] remoteId keyA).1 remoteId keyB).1
      remoteId keyB).2 = false := by
  have h1 : saveIdentity [] remoteId keyA =
      ([(identityTag ++ remoteId, keyA)], false) := rfl
  have hBA : arrayBufferEquals keyB keyA = false := by
    rw [Bool.eq_false_iff, Ne, arrayBufferEquals_iff]
    exact fun h => hne h.symm
  have hBB : arrayBufferEquals keyB keyB = true :=
    (arrayBufferEquals_iff _ _).mpr rfl
  have h2 : saveIdentity [(identityTag ++ remoteId, keyA)] remoteId keyB =
      ([(identityTag ++ remoteId, keyB)], true) := by
    rw [saveIdentity]
    simp [mapGet, mapSet, hBA]
  have h3 : saveIdentity [(identityTag ++ remoteId, keyB)] remoteId keyB =
      ([(identityTag ++ remoteId, keyB)], false) := by
    rw [saveIdentity]
    simp [mapGet, mapSet, hBB]
  rw [h1]
  refine ⟨rfl, ?_, ?_⟩
  · rw [h2]
  · rw [h2, h3]

/-- C7, witness: the three saves evaluated at a concrete identifier and
two distinct one-byte keys. -/
theorem c7_witness :
    (saveIdentity [] [114] [0]).2 = false ∧
    (saveIdentity (saveIdentity [] [114] [0]).1 [114] [1]).2 = true ∧
    (saveIdentity (saveIdentity (saveIdentity [] [114] [0]).1 [114] [1]).1
      [114] [1]).2 = false :=
  c7_saveIdentity_change_flag [114] [0] [1] (by decide)

/-- C8, counterexample: for the 32-character key consisting of code
point 233 repeated, `deriveKey` with the `message` label does not
return the hex encoding of the first 32 characters of the key: each of
those characters occupies two UTF-8 bytes, so the output covers only
the first 16 characters. -/
theorem c8_chars_counterexample :
    deriveKey (List.replicate 32 233) msgLabel ≠
      hexEncodeBytes (utf8Encode ((List.replicate 32 233).take 32)) := by
  decide

/-- C8, amended: for every valid key of at least 32 characters and any
info labels, `deriveKey` returns the hex encoding of the first 32 bytes
of the UTF-8 encoding of the key; hence the output is independent of
the label and hex-decodes back to exactly those 32 key bytes. -/
theorem c8_first32_bytes (key info1 info2 : JStr) (hv : ValidJStr key)
    (hl : 32 ≤ key.length) :
    deriveKey key info1 = hexEncodeBytes ((utf8Encode key).take 32) ∧
    deriveKey key info1 = deriveKey key info2 ∧
    parseHexPairs (deriveKey key info1) = (utf8Encode key).take 32 := by
  have hb : ∀ b ∈ utf8Encode key, b < 256 := utf8Encode_lt hv
  have hlb : 32 ≤ (utf8Encode key).length :=
    le_trans hl (utf8Encode_length_ge key)
  have main : ∀ info : JStr,
      deriveKey key info = hexEncodeBytes ((utf8Encode key).take 32) := by
    intro info
    rw [deriveKey, utf8Encode_append, hexEncodeBytes_append,
      List.take_append_of_le_length (by rw [hexEncodeBytes_length hb]; omega)]
    have h64 : (64 : Nat) = 2 * 32 := by norm_num
    rw [h64, hexEncodeBytes_take hb 32]
  refine ⟨main info1, (main info1).trans (main info2).symm, ?_⟩
  rw [main info1]
  exact parseHexPairs_hexEncodeBytes
    (fun b hb2 => hb b (List.mem_of_mem_take hb2))

/-- C8, witness: the amended statement evaluated at the 32-character
hex key `k32` with the `message` and `chain` labels. -/
theorem c8_witness :
    deriveKey k32 msgLabel = hexEncodeBytes ((utf8Encode k32).take 32) ∧
    deriveKey k32 msgLabel = deriveKey k32 chainLabel ∧
    parseHexPairs (deriveKey k32 msgLabel) = (utf8Encode k32).take 32 :=
  c8_first32_bytes k32 msgLabel chainLabel (by decide) (by decide)

/-- C9: every ciphertext byte at a position at or beyond
`min(message.length, 64)` — where `message.length` is the UTF-16 length
the source reads, modelled by `utf16Len` — equals the corresponding
plaintext byte: the key stream is exhausted there and the xor is with
0, so the tail of any message longer than 64 characters is carried
hex-encoded in the clear. -/
theorem c9_tail_in_clear (m k : JStr) (i : Nat) (hv : ValidJStr m)
    (hi : min (utf16Len m) 64 ≤ i) :
    (parseHexPairs (encryptMessage m k).ciphertext)[i]? =
      (utf8Encode m)[i]? := by
  have hmb256 : ∀ b ∈ utf8Encode m, b < 256 := utf8Encode_lt hv
  have hkbA : ∀ c ∈ (deriveKey k msgLabel).take (utf16Len m), c ≤ 127 :=
    fun c hc => deriveKey_ascii k msgLabel c (List.mem_of_mem_take hc)
  have hkb : utf8Encode ((deriveKey k msgLabel).take (utf16Len m)) =
      (deriveKey k msgLabel).take (utf16Len m) := utf8Encode_ascii hkbA
  have h28 : (2 : Nat) ^ 8 = 256 := by norm_num
  have hx256 : ∀ x ∈ xorWithKey (utf8Encode m)
      ((deriveKey k msgLabel).take (utf16Len m)), x < 256 := by
    have hx := xorWithKey_lt (w := 8)
      (fun b hb => by rw [h28]; exact hmb256 b hb)
      (fun b hb => by rw [h28]; have := hkbA b hb; omega)
    intro x hxx
    have := hx x hxx
    omega
  have hklen : ((deriveKey k msgLabel).take (utf16Len m)).length ≤ i := by
    rw [List.length_take]
    have hK : (deriveKey k msgLabel).length ≤ 64 := by
      rw [deriveKey, List.length_take]
      omega
    omega
  simp only [encryptMessage]
  rw [hkb, parseHexPairs_hexEncodeBytes hx256]
  exact xorWithKey_getElem _ hklen

/-- C9, witness: a 70-character ASCII message under the chain key
`k32`, inspected at byte position 64. -/
theorem c9_witness :
    (parseHexPairs
      (encryptMessage (List.replicate 70 97) k32).ciphertext)[64]? =
      (utf8Encode (List.replicate 70 97))[64]? :=
  c9_tail_in_clear (List.replicate 70 97) k32 64 (by decide) (by decide)

/-- C10: immediately after `saveIdentity`, `isTrustedIdentity` holds
for the saved key against any prior store contents, because
`saveIdentity` overwrites the pinned identity before any comparison. -/
theorem c10_save_then_trusted (st : StoreMap) (identifier : JStr)
    (identityKey : List Nat) :
    isTrustedIdentity (saveIdentity st identifier identityKey).1
      identifier identityKey = true := by
  rw [saveIdentity_fst, isTrustedIdentity, mapGet_mapSet_self]
  exact (arrayBufferEquals_iff _ _).mpr rfl

end Whisper
